import Mathlib

/-!
Shallow embedding of `src/qrng/__init__.py` and verification of its
specification claims.

The repository has two functions:

* `quantum_random_byte()` performs one HTTP GET against the ANU QRNG
  endpoint, raises on a transport failure or non-success status
  (`requests.RequestException`, re-raised as `ValueError`), parses the JSON
  body and returns `data['data'][0]` when the `data` field holds a sequence
  of length exactly 1, otherwise raises
  `ValueError("Unexpected API response structure.")`.

* `quantum_choice(choices, weights=None)` defaults weights to `[1]*len(choices)`,
  normalizes them to integers summing to (at most) 255 by
  `int((w/total)*255)`, adds the deficit `255 - sum` to the first index of
  the maximum original weight when positive, materializes the lookup table
  `choice_map` by repeating each choice `weight` times, fetches one byte
  and returns `choice_map[random_byte]`.

The embedding uses ℚ for Python numbers (the algorithm's arithmetic is
exact at every input appearing below), `Except QErr` for Python
exceptions, and passes the fetched-byte outcome explicitly so that the
network boundary is visible: `requestsByte` records whether execution
reaches the fetch call.
-/

namespace QRNG

/-- The Python exceptions the module can raise, by site. -/
inductive QErr where
  /-- `ZeroDivisionError` from `w / total` when `total == 0`. -/
  | zeroDivision
  /-- `IndexError` from `choice_map[random_byte]`. -/
  | indexError
  /-- `ValueError("Unexpected API response structure.")`. -/
  | malformedResponse
  /-- `ValueError("max() arg is an empty sequence")` from `max(weights)`
  when the weights list is empty (then `normalized_weights == []`, so
  `adjustment == 255 > 0` and `max` is reached). -/
  | emptyMax
  /-- `ValueError("Failed to fetch quantum random byte: ...")`, wrapping a
  `requests.RequestException` (transport failure, timeout, or the
  `HTTPError` from `raise_for_status`). -/
  | sourceUnavailable
  deriving DecidableEq, Repr

/-- A parsed JSON response body: `data` is the optional `'data'` field. -/
structure Payload where
  data : Option (List ℤ)
  deriving DecidableEq

/-- An HTTP response: status code, and the parsed body when the body is
valid JSON (`none` models an unparseable body, whose
`requests.exceptions.JSONDecodeError` is a `RequestException`). -/
structure HttpResponse where
  status : Nat
  payload : Option Payload
  deriving DecidableEq

/-- Embedding of `quantum_random_byte`. The argument is the outcome of
`requests.get`: `none` is a transport failure or timeout. `raise_for_status`
raises `HTTPError` exactly for status codes 400–599 (a status ≥ 600
proceeds to the body like a success); every `RequestException` is caught
and re-raised as the wrapping `ValueError` (modelled `sourceUnavailable`).
On a parsed body, `data['data'][0]` is returned when
`'data' in data and len(data['data']) == 1`, else the structure
`ValueError` (modelled `malformedResponse`) is raised. -/
def quantum_random_byte : Option HttpResponse → Except QErr ℤ
  | none => .error .sourceUnavailable
  | some r =>
    if 400 ≤ r.status ∧ r.status < 600 then .error .sourceUnavailable
    else
      match r.payload with
      | none => .error .sourceUnavailable
      | some p =>
        match p.data with
        | none => .error .malformedResponse
        | some l => if l.length = 1 then .ok (l.getD 0 0) else .error .malformedResponse

/-- Python `int()` applied to an exact number: truncation toward zero. -/
def pyInt (x : ℚ) : ℤ := if 0 ≤ x then ⌊x⌋ else ⌈x⌉

/-- Python `max(weights)` (left fold of binary max over a nonempty list).
Python's `max([])` raises `ValueError`; here the `[]` case carries a junk
value 0, which the embedding never consumes: `buildChoiceMap` raises the
corresponding `emptyMax` error before the table construction whenever the
weights list is empty. -/
def listMax : List ℚ → ℚ
  | [] => 0
  | x :: xs => xs.foldl max x

/-- Python `weights.index(max(weights))`: index of the first occurrence of
the maximum value of the original weight list. -/
def idxOfMax (l : List ℚ) : Nat := l.indexOf (listMax l)

/-- `normalized_weights = [int((w / total) * 255) for w in weights]`. -/
def normalizedWeights (ws : List ℚ) : List ℤ :=
  ws.map fun w => pyInt (w / ws.sum * 255)

/-- `adjustment = 255 - sum(normalized_weights)`. -/
def adjustment (ws : List ℚ) : ℤ := 255 - (normalizedWeights ws).sum

/-- `if adjustment > 0: normalized_weights[max_idx] += adjustment`. -/
def adjustedWeights (ws : List ℚ) : List ℤ :=
  let nw := normalizedWeights ws
  if 0 < adjustment ws then
    nw.set (idxOfMax ws) (nw.getD (idxOfMax ws) 0 + adjustment ws)
  else nw

/-- `choice_map`: for each `(choice, weight)` pair of
`zip(choices, normalized_weights)` (post-adjustment), `weight` repetitions
of `choice`, concatenated in input order. Python `[c] * n` is empty for
`n ≤ 0`, hence `Int.toNat`. -/
def choiceMap (choices : List String) (ws : List ℚ) : List String :=
  ((choices.zip (adjustedWeights ws)).map fun p => List.replicate p.2.toNat p.1).flatten

/-- The part of `quantum_choice` that runs before the fetch: default the
weights, then build the table. The comprehension performs one division per
element, so with a nonempty weight list and `total == 0` it raises
`ZeroDivisionError`; with an empty weight list no division ever executes,
the comprehension yields `[]`, `adjustment == 255 > 0`, and `max([])`
raises `ValueError` — either way before any network activity. -/
def buildChoiceMap (choices : List String) (weights : Option (List ℚ)) :
    Except QErr (List String) :=
  let ws := weights.getD (List.replicate choices.length 1)
  if ws = [] then .error .emptyMax
  else if ws.sum = 0 then .error .zeroDivision
  else .ok (choiceMap choices ws)

/-- Whether a call with these arguments reaches `quantum_random_byte()`,
i.e. issues the network request: the code is straight-line, so this
happens exactly when the table construction raises nothing. -/
def requestsByte (choices : List String) (weights : Option (List ℚ)) : Bool :=
  match buildChoiceMap choices weights with
  | .ok _ => true
  | .error _ => false

/-- Embedding of `quantum_choice(choices, weights)`. `fetch` is the outcome
of the `quantum_random_byte()` call; its exception propagates unhandled.
`choice_map[random_byte]` uses CPython list indexing: a negative index is
taken from the end, and an index out of the resulting range raises
`IndexError`. -/
def quantum_choice (choices : List String) (weights : Option (List ℚ))
    (fetch : Except QErr ℤ) : Except QErr String :=
  match buildChoiceMap choices weights with
  | .error e => .error e
  | .ok cmap =>
    match fetch with
    | .error e => .error e
    | .ok b =>
      let i : ℤ := if b < 0 then b + cmap.length else b
      if i < 0 then .error .indexError
      else
        match cmap.get? i.toNat with
        | some c => .ok c
        | none => .error .indexError

set_option maxRecDepth 8000

/-! ## Concrete evaluations shared by several claims -/

theorem adjustedWeights_one : adjustedWeights [1] = [255] := by
  unfold adjustedWeights adjustment normalizedWeights idxOfMax listMax pyInt
  norm_num

theorem adjustedWeights_fruit : adjustedWeights [1, 2, 3] = [42, 85, 128] := by
  unfold adjustedWeights adjustment normalizedWeights idxOfMax listMax pyInt
  norm_num

theorem buildChoiceMap_solo :
    buildChoiceMap ["solo"] none = .ok (List.replicate 255 "solo") := by
  rw [buildChoiceMap]
  norm_num [List.replicate]
  rw [choiceMap, adjustedWeights_one]
  rfl

theorem buildChoiceMap_fruit :
    buildChoiceMap ["apple", "banana", "cherry"] (some [1, 2, 3]) =
      .ok (List.replicate 42 "apple" ++
        (List.replicate 85 "banana" ++ (List.replicate 128 "cherry" ++ []))) := by
  rw [buildChoiceMap]
  norm_num
  rw [choiceMap, adjustedWeights_fruit]
  rfl

theorem buildChoiceMap_empty (choices : List String) (weights : Option (List ℚ))
    (he : weights.getD (List.replicate choices.length 1) = []) :
    buildChoiceMap choices weights = .error .emptyMax := by
  rw [buildChoiceMap]
  simp only [he]
  rfl

/-! ## Helper lemmas on the normalization arithmetic -/

theorem pyInt_of_nonneg {x : ℚ} (h : 0 ≤ x) : pyInt x = ⌊x⌋ := if_pos h

theorem sum_floor_le (l : List ℚ) : (l.map fun x => ⌊x⌋).sum ≤ ⌊l.sum⌋ := by
  induction l with
  | nil => simp
  | cons x xs ih =>
    simp only [List.map_cons, List.sum_cons]
    calc ⌊x⌋ + (xs.map fun y => ⌊y⌋).sum ≤ ⌊x⌋ + ⌊xs.sum⌋ := by omega
      _ ≤ ⌊x + xs.sum⌋ := by
          rw [Int.le_floor]
          push_cast
          exact add_le_add (Int.floor_le x) (Int.floor_le xs.sum)

theorem sum_map_div_mul (ws : List ℚ) (s c : ℚ) :
    (ws.map fun w => w / s * c).sum = ws.sum / s * c := by
  induction ws with
  | nil => simp
  | cons x xs ih =>
    simp only [List.map_cons, List.sum_cons, ih]
    ring

theorem normalizedWeights_eq_floor (ws : List ℚ) (hnn : ∀ w ∈ ws, 0 ≤ w)
    (hs : 0 < ws.sum) :
    normalizedWeights ws = ws.map fun w => ⌊w / ws.sum * 255⌋ := by
  unfold normalizedWeights
  refine List.map_congr_left fun w hw => pyInt_of_nonneg ?_
  have := hnn w hw
  positivity

theorem normalizedWeights_sum_le (ws : List ℚ) (hnn : ∀ w ∈ ws, 0 ≤ w)
    (hs : 0 < ws.sum) : (normalizedWeights ws).sum ≤ 255 := by
  rw [normalizedWeights_eq_floor ws hnn hs]
  have h1 : (ws.map fun w => ⌊w / ws.sum * 255⌋) =
      (ws.map fun w => w / ws.sum * 255).map fun x => ⌊x⌋ := by
    rw [List.map_map]
    rfl
  rw [h1]
  have h2 := sum_floor_le (ws.map fun w => w / ws.sum * 255)
  have h3 : (ws.map fun w => w / ws.sum * 255).sum = 255 := by
    rw [sum_map_div_mul, div_self hs.ne']
    norm_num
  rw [h3] at h2
  simpa using h2

theorem adjustment_nonneg (ws : List ℚ) (hnn : ∀ w ∈ ws, 0 ≤ w)
    (hs : 0 < ws.sum) : 0 ≤ adjustment ws := by
  have := normalizedWeights_sum_le ws hnn hs
  unfold adjustment
  omega

theorem sum_set_int (l : List ℤ) (i : Nat) (x : ℤ) (h : i < l.length) :
    (l.set i x).sum = l.sum - l.getD i 0 + x := by
  induction l generalizing i with
  | nil => simp at h
  | cons a t ih =>
    cases i with
    | zero => simp [List.set]; ring
    | succ j =>
      simp only [List.set, List.sum_cons, List.getD_cons_succ]
      rw [ih j (by simpa using h)]
      ring

theorem foldl_max_mem (xs : List ℚ) : ∀ a : ℚ, xs.foldl max a ∈ a :: xs := by
  induction xs with
  | nil => simp
  | cons y ys ih =>
    intro a
    have h := ih (max a y)
    rcases max_choice a y with hc | hc <;>
      (rw [List.foldl_cons]; rcases List.mem_cons.1 h with h1 | h1)
    · exact List.mem_cons.2 (Or.inl (h1.trans hc))
    · simp [List.mem_cons.2, h1]
    · rw [h1, hc]; simp
    · simp [h1]

theorem listMax_mem (ws : List ℚ) (h : ws ≠ []) : listMax ws ∈ ws := by
  match ws with
  | x :: xs => exact foldl_max_mem xs x

theorem le_foldl_max (xs : List ℚ) : ∀ a : ℚ, a ≤ xs.foldl max a := by
  induction xs with
  | nil => simp
  | cons y ys ih =>
    intro a
    rw [List.foldl_cons]
    exact le_trans (le_max_left a y) (ih (max a y))

theorem mem_le_foldl_max (xs : List ℚ) : ∀ (a w : ℚ), w ∈ xs → w ≤ xs.foldl max a := by
  induction xs with
  | nil => simp
  | cons y ys ih =>
    intro a w hw
    rw [List.foldl_cons]
    rcases List.mem_cons.1 hw with h1 | h1
    · rw [h1]
      exact le_trans (le_max_right a y) (le_foldl_max ys (max a y))
    · exact ih (max a y) w h1

theorem le_listMax (ws : List ℚ) (w : ℚ) (hw : w ∈ ws) : w ≤ listMax ws := by
  match ws with
  | x :: xs =>
    rcases List.mem_cons.1 hw with h1 | h1
    · exact h1 ▸ le_foldl_max xs x
    · exact mem_le_foldl_max xs x w h1

theorem idxOfMax_lt_length (ws : List ℚ) (h : ws ≠ []) :
    idxOfMax ws < ws.length :=
  List.indexOf_lt_length.2 (listMax_mem ws h)

theorem getD_idxOfMax (ws : List ℚ) (h : ws ≠ []) :
    ws.getD (idxOfMax ws) 0 = listMax ws := by
  have hlt := idxOfMax_lt_length ws h
  have hsome : ws.get? (idxOfMax ws) = some (listMax ws) :=
    List.get?_eq_some.2 ⟨hlt, List.indexOf_get hlt⟩
  rw [List.getD_eq_getD_get?, hsome]
  rfl

theorem get?_before_indexOf {α : Type} [DecidableEq α] (l : List α) (a : α) :
    ∀ j, j < l.indexOf a → ∀ b, l.get? j = some b → b ≠ a := by
  induction l with
  | nil => intro j hj; simp [List.indexOf_nil] at hj
  | cons x t ih =>
    intro j hj b hb
    by_cases hx : x = a
    · subst hx
      rw [List.indexOf_cons_self] at hj
      omega
    · rw [List.indexOf_cons_ne _ hx] at hj
      cases j with
      | zero =>
        simp only [List.get?] at hb
        injection hb with h2
        exact fun hba => hx (h2.trans hba)
      | succ k =>
        exact ih k (by omega) b (by simpa using hb)

theorem adjustedWeights_sum (ws : List ℚ) (hnn : ∀ w ∈ ws, 0 ≤ w)
    (hs : 0 < ws.sum) : (adjustedWeights ws).sum = 255 := by
  have hne : ws ≠ [] := by
    intro h
    rw [h] at hs
    simp at hs
  have hlt : idxOfMax ws < (normalizedWeights ws).length := by
    rw [normalizedWeights, List.length_map]
    exact idxOfMax_lt_length ws hne
  unfold adjustedWeights
  by_cases h : 0 < adjustment ws
  · rw [if_pos h, sum_set_int _ _ _ hlt]
    unfold adjustment
    ring
  · rw [if_neg h]
    have := adjustment_nonneg ws hnn hs
    unfold adjustment at this h
    omega

/-! ## Claim theorems -/

/-- C3: for any weight vector of non-negative entries with positive sum,
every raw normalized entry is the truncation `⌊(w / total) * 255⌋`, the
deficit `255 - sum` is non-negative, and the post-adjustment table sums to
exactly 255. -/
theorem C3_sum_exactly_255 (ws : List ℚ) (hnn : ∀ w ∈ ws, 0 ≤ w)
    (hs : 0 < ws.sum) :
    (∀ (i : Nat) (w : ℚ), ws.get? i = some w →
      (normalizedWeights ws).get? i = some ⌊w / ws.sum * 255⌋) ∧
    0 ≤ adjustment ws ∧
    (adjustedWeights ws).sum = 255 := by
  refine ⟨?_, adjustment_nonneg ws hnn hs, adjustedWeights_sum ws hnn hs⟩
  intro i w hw
  rw [normalizedWeights_eq_floor ws hnn hs, List.get?_map, hw]
  rfl

/-- C3 witness at weights `[1, 2, 3]`. -/
theorem C3_sum_exactly_255_witness :
    (∀ (i : Nat) (w : ℚ), ([1, 2, 3] : List ℚ).get? i = some w →
      (normalizedWeights [1, 2, 3]).get? i =
        some ⌊w / ([1, 2, 3] : List ℚ).sum * 255⌋) ∧
    0 ≤ adjustment [1, 2, 3] ∧
    (adjustedWeights [1, 2, 3]).sum = 255 :=
  C3_sum_exactly_255 [1, 2, 3] (by norm_num) (by norm_num)

/-- C1: the claim says every byte 0–255 yields a defined choice, in
particular for `["solo"]` with no weights. The code violates this: the
table is normalized to 255 slots (indices 0–254), so the fetched byte 255
raises `IndexError` — bytes 0 and 254 do map to `"solo"`. The in-file
distribution test calls `quantum_choice` 1000 times and would crash with
overwhelming probability, so this is a slip in the code, not intent. -/
theorem C1_byte255_indexError :
    quantum_choice ["solo"] none (.ok 255) = .error .indexError ∧
    quantum_choice ["solo"] none (.ok 0) = .ok "solo" ∧
    quantum_choice ["solo"] none (.ok 254) = .ok "solo" := by
  refine ⟨?_, ?_, ?_⟩ <;> (rw [quantum_choice, buildChoiceMap_solo]; rfl)

/-- C2: for choices apple/banana/cherry with weights 1/2/3 the
post-adjustment table is `[42, 85, 128]` and bytes 0 and 127 map to
`"apple"` and `"cherry"` as claimed; but byte 255 raises `IndexError`
(the table occupies indices 0–254), where the claim says `"cherry"`. -/
theorem C2_scenario_apple_banana_cherry :
    adjustedWeights [1, 2, 3] = [42, 85, 128] ∧
    quantum_choice ["apple", "banana", "cherry"] (some [1, 2, 3]) (.ok 0) = .ok "apple" ∧
    quantum_choice ["apple", "banana", "cherry"] (some [1, 2, 3]) (.ok 127) = .ok "cherry" ∧
    quantum_choice ["apple", "banana", "cherry"] (some [1, 2, 3]) (.ok 255) =
      .error .indexError := by
  refine ⟨adjustedWeights_fruit, ?_, ?_, ?_⟩ <;>
    (rw [quantum_choice, buildChoiceMap_fruit]; rfl)

/-- C4 counterexample: the claim says a weights sequence whose length
differs from the choices sequence makes `choose()` fail with
`InvalidArguments` before any network request. In the code there is no
validation at all: with `choices = ["a","b"]` and `weights = [1]`, `zip`
silently drops `"b"`, the network request is issued, and the call
returns `"a"`. -/
theorem C4_counterexample :
    requestsByte ["a", "b"] (some [1]) = true ∧
    quantum_choice ["a", "b"] (some [1]) (.ok 0) = .ok "a" := by
  have hb : buildChoiceMap ["a", "b"] (some [1]) = .ok (List.replicate 255 "a") := by
    rw [buildChoiceMap]
    norm_num
    rw [choiceMap, adjustedWeights_one]
    rfl
  constructor
  · rw [requestsByte, hb]
  · rw [quantum_choice, hb]
    rfl

/-- On a zero total with a nonempty weight list, the list comprehension
raises `ZeroDivisionError` at its first element. -/
theorem buildChoiceMap_of_sum_eq_zero (choices : List String)
    (weights : Option (List ℚ))
    (hne : weights.getD (List.replicate choices.length 1) ≠ [])
    (hz : (weights.getD (List.replicate choices.length 1)).sum = 0) :
    buildChoiceMap choices weights = .error .zeroDivision := by
  rw [buildChoiceMap]
  simp only [hz, if_neg hne]
  rfl

/-- C4 amended: `quantum_choice` performs no explicit argument validation
and no `InvalidArguments`-style error exists in the module. The call fails
before any network request exactly when the effective weights (supplied,
or defaulted to `[1]*len(choices)`) sum to zero: with an empty effective
weight list (zero choices with omitted weights, or an explicitly empty
weights list) no division executes and `max([])` raises its
`ValueError`; with a nonempty all-zero (more generally zero-total) weight
list the division `w / total` raises `ZeroDivisionError`. A length
mismatch with nonempty weights raises no error at all — `zip` silently
truncates and the network request is issued (the CLI layer alone checks
lengths) — and negative weights with nonzero total are likewise not
rejected. -/
theorem C4_amended (choices : List String) (weights : Option (List ℚ))
    (fetch : Except QErr ℤ)
    (hz : (weights.getD (List.replicate choices.length 1)).sum = 0) :
    quantum_choice choices weights fetch =
      .error (if weights.getD (List.replicate choices.length 1) = []
        then .emptyMax else .zeroDivision) ∧
    requestsByte choices weights = false := by
  by_cases he : weights.getD (List.replicate choices.length 1) = []
  · rw [if_pos he]
    have hb := buildChoiceMap_empty choices weights he
    exact ⟨by rw [quantum_choice, hb], by rw [requestsByte, hb]⟩
  · rw [if_neg he]
    have hb := buildChoiceMap_of_sum_eq_zero choices weights he hz
    exact ⟨by rw [quantum_choice, hb], by rw [requestsByte, hb]⟩

/-- C4 amended, witness: zero choices with omitted weights (the empty
branch: `ValueError` from `max([])`, no request), and all-zero weights
`[0, 0]` (the `ZeroDivisionError` branch, no request). -/
theorem C4_amended_witness :
    (quantum_choice [] none (.ok 0) = .error .emptyMax ∧
      requestsByte [] none = false) ∧
    (quantum_choice ["a", "b"] (some [0, 0]) (.ok 0) = .error .zeroDivision ∧
      requestsByte ["a", "b"] (some [0, 0]) = false) := by
  constructor
  · have h := C4_amended [] none (.ok 0) rfl
    simpa using h
  · have h := C4_amended ["a", "b"] (some [0, 0]) (.ok 0) (by norm_num)
    simpa using h

/-- C5 counterexample: the claim says a successful return of
`quantum_random_byte` lies in [0,255]. The code performs no range check:
a successful response whose payload is `{"data": [256]}` makes it return
256. -/
theorem C5_counterexample :
    quantum_random_byte (some ⟨200, some ⟨some [256]⟩⟩) = .ok 256 ∧
    ¬ ((256 : ℤ) ≤ 255) := by
  exact ⟨rfl, by decide⟩

/-- C5 amended: on a success-status response whose parsed payload holds
`data = [x]`, `quantum_random_byte` returns exactly `x`, with no range
validation; consequently the returned value lies in [0,255] precisely
when the payload's integer does. -/
theorem C5_amended (r : HttpResponse) (p : Payload) (x : ℤ)
    (hs : r.status < 400) (hp : r.payload = some p) (hd : p.data = some [x]) :
    quantum_random_byte (some r) = .ok x := by
  have hcond : ¬ (400 ≤ r.status ∧ r.status < 600) := by omega
  simp only [quantum_random_byte, hp, hd, if_neg hcond]
  rfl

/-- C5 amended, witness: status 200, payload data `[7]` returns 7. -/
theorem C5_amended_witness :
    quantum_random_byte (some ⟨200, some ⟨some [7]⟩⟩) = .ok 7 :=
  C5_amended ⟨200, some ⟨some [7]⟩⟩ ⟨some [7]⟩ 7 (by decide) rfl rfl

/-- C6: when the deficit is positive it is added, in its entirety, to the
entry at `weights.index(max(weights))` — the first index at which the
original (source) weight attains its maximum — and every other entry is
left unchanged; with all-equal weights that index is 0. -/
theorem C6_deficit_first_max (ws : List ℚ) (hne : ws ≠ [])
    (hadj : 0 < adjustment ws) :
    (∀ w ∈ ws, w ≤ ws.getD (idxOfMax ws) 0) ∧
    (∀ j, j < idxOfMax ws → ∀ w, ws.get? j = some w →
      w < ws.getD (idxOfMax ws) 0) ∧
    (adjustedWeights ws).get? (idxOfMax ws) =
      some ((normalizedWeights ws).getD (idxOfMax ws) 0 + adjustment ws) ∧
    (∀ j, j ≠ idxOfMax ws →
      (adjustedWeights ws).get? j = (normalizedWeights ws).get? j) ∧
    ((∀ w ∈ ws, w = ws.getD 0 0) → idxOfMax ws = 0) := by
  have hmax := getD_idxOfMax ws hne
  refine ⟨?_, ?_, ?_, ?_, ?_⟩
  · intro w hw
    rw [hmax]
    exact le_listMax ws w hw
  · intro j hj w hw
    rw [hmax]
    have hwne : w ≠ listMax ws := get?_before_indexOf ws (listMax ws) j hj w hw
    exact lt_of_le_of_ne (le_listMax ws w (List.get?_mem hw)) hwne
  · have hlt : idxOfMax ws < (normalizedWeights ws).length := by
      rw [normalizedWeights, List.length_map]
      exact idxOfMax_lt_length ws hne
    unfold adjustedWeights
    rw [if_pos hadj]
    exact List.get?_set_eq_of_lt _ hlt
  · intro j hj
    unfold adjustedWeights
    rw [if_pos hadj]
    exact List.get?_set_ne _ _ fun h => hj h.symm
  · intro hall
    cases ws with
    | nil => exact absurd rfl hne
    | cons x xs =>
      have hm : listMax (x :: xs) = x := by
        have h1 := hall _ (listMax_mem (x :: xs) (by simp))
        simpa using h1
      rw [idxOfMax, hm]
      exact List.indexOf_cons_self x xs

/-- C6 witness at weights `[1, 2, 3]` (deficit 1, first max at index 2). -/
theorem C6_deficit_first_max_witness :
    (∀ w ∈ ([1, 2, 3] : List ℚ), w ≤ ([1, 2, 3] : List ℚ).getD (idxOfMax [1, 2, 3]) 0) ∧
    (∀ j, j < idxOfMax [1, 2, 3] → ∀ w, ([1, 2, 3] : List ℚ).get? j = some w →
      w < ([1, 2, 3] : List ℚ).getD (idxOfMax [1, 2, 3]) 0) ∧
    (adjustedWeights [1, 2, 3]).get? (idxOfMax [1, 2, 3]) =
      some ((normalizedWeights [1, 2, 3]).getD (idxOfMax [1, 2, 3]) 0 +
        adjustment [1, 2, 3]) ∧
    (∀ j, j ≠ idxOfMax [1, 2, 3] →
      (adjustedWeights [1, 2, 3]).get? j = (normalizedWeights [1, 2, 3]).get? j) ∧
    ((∀ w ∈ ([1, 2, 3] : List ℚ), w = ([1, 2, 3] : List ℚ).getD 0 0) →
      idxOfMax [1, 2, 3] = 0) :=
  C6_deficit_first_max [1, 2, 3] (by simp)
    (by unfold adjustment normalizedWeights pyInt; norm_num)

/-- A successful `quantum_choice` outcome is an element of the table the
call built. -/
theorem quantum_choice_ok_mem (choices : List String) (weights : Option (List ℚ))
    (fetch : Except QErr ℤ) (c : String)
    (h : quantum_choice choices weights fetch = .ok c) :
    ∃ cmap, buildChoiceMap choices weights = .ok cmap ∧ c ∈ cmap := by
  unfold quantum_choice at h
  cases hb : buildChoiceMap choices weights with
  | error e => rw [hb] at h; simp at h
  | ok cmap =>
    rw [hb] at h
    refine ⟨cmap, rfl, ?_⟩
    cases fetch with
    | error e => simp at h
    | ok b =>
      simp only at h
      by_cases hneg : (if b < 0 then b + (cmap.length : ℤ) else b) < 0
      · rw [if_pos hneg] at h
        cases h
      · rw [if_neg hneg] at h
        cases hg : cmap.get? (if b < 0 then b + (cmap.length : ℤ) else b).toNat with
        | none => rw [hg] at h; cases h
        | some c2 =>
          rw [hg] at h
          injection h with h2
          exact h2 ▸ List.get?_mem hg

/-- An `ok` table construction means the total was nonzero and the table
is `choiceMap`. -/
theorem buildChoiceMap_ok_elim (choices : List String) (ws : List ℚ)
    (cmap : List String) (hb : buildChoiceMap choices (some ws) = .ok cmap) :
    ws.sum ≠ 0 ∧ cmap = choiceMap choices ws := by
  unfold buildChoiceMap at hb
  simp only [Option.getD_some] at hb
  by_cases he : ws = []
  · rw [if_pos he] at hb
    cases hb
  · rw [if_neg he] at hb
    by_cases h : ws.sum = 0
    · rw [if_pos h] at hb
      cases hb
    · rw [if_neg h] at hb
      injection hb with h2
      exact ⟨h, h2.symm⟩

/-- Membership in the table comes from some zip pair with positive
repetition count. -/
theorem mem_choiceMap_elim (choices : List String) (ws : List ℚ) (c : String)
    (h : c ∈ choiceMap choices ws) :
    ∃ j p, (choices.zip (adjustedWeights ws)).get? j = some p ∧
      p.1 = c ∧ p.2.toNat ≠ 0 := by
  unfold choiceMap at h
  rcases List.mem_flatten.1 h with ⟨sub, hsub, hcsub⟩
  rcases List.mem_map.1 hsub with ⟨p, hp, hpeq⟩
  rw [← hpeq] at hcsub
  rcases List.mem_replicate.1 hcsub with ⟨hn, hceq⟩
  rcases List.get?_of_mem hp with ⟨j, hj⟩
  exact ⟨j, p, hj, hceq.symm, hn⟩

/-- C9: an index whose raw normalized weight is 0 and which does not
receive the deficit keeps weight 0 after adjustment, occupies no slot of
the table, and (for pairwise-distinct labels) its label is never the
successful outcome of `quantum_choice`, whatever the fetched byte. -/
theorem C9_zero_weight_never_selected (choices : List String) (ws : List ℚ)
    (i : Nat) (hlen : ws.length = choices.length) (hnd : choices.Nodup)
    (hi : i < choices.length)
    (hraw : (normalizedWeights ws).get? i = some 0)
    (hnot : ¬ (0 < adjustment ws ∧ idxOfMax ws = i)) :
    (adjustedWeights ws).get? i = some 0 ∧
    ∀ (fetch : Except QErr ℤ) (c : String),
      quantum_choice choices (some ws) fetch = .ok c →
        c ≠ choices.getD i "" := by
  have hadjw : (adjustedWeights ws).get? i = some 0 := by
    unfold adjustedWeights
    by_cases h : 0 < adjustment ws
    · rw [if_pos h]
      have hne : idxOfMax ws ≠ i := fun he => hnot ⟨h, he⟩
      rw [List.get?_set_ne _ _ hne]
      exact hraw
    · rw [if_neg h]
      exact hraw
  refine ⟨hadjw, ?_⟩
  intro fetch c hqc hc
  rcases quantum_choice_ok_mem choices (some ws) fetch c hqc with ⟨cmap, hb, hmem⟩
  rcases buildChoiceMap_ok_elim choices ws cmap hb with ⟨hsum, hcm⟩
  rw [hcm] at hmem
  rcases mem_choiceMap_elim choices ws c hmem with ⟨j, p, hj, hp1, hp2⟩
  rcases (List.get?_zip_eq_some _ _ _ _).1 hj with ⟨hj1, hj2⟩
  have hci : choices.get? i = some (choices.get ⟨i, hi⟩) :=
    List.get?_eq_some.2 ⟨hi, rfl⟩
  have hgd : choices.getD i "" = choices.get ⟨i, hi⟩ := by
    rw [List.getD_eq_getD_get?, hci]
    rfl
  have hj1' : choices.get? j = choices.get? i := by
    rw [hj1, hci, hp1, hc, hgd]
  have hjlen : j < choices.length := (List.get?_eq_some.1 hj1).1
  have hij : j = i := List.get?_inj hjlen hnd hj1'
  rw [hij] at hj2
  have h0 : (0 : ℤ) = p.2 := by
    have := hadjw.symm.trans hj2
    injection this
  rw [← h0] at hp2
  exact hp2 rfl

theorem normalizedWeights_skew : normalizedWeights [1, 1000] = [0, 254] := by
  unfold normalizedWeights pyInt
  norm_num

theorem idxOfMax_skew : idxOfMax [1, 1000] = 1 := by
  have hm : listMax [1, 1000] = 1000 := by
    rw [listMax]
    norm_num [List.foldl]
  rw [idxOfMax, hm, List.indexOf_cons_ne _ (by norm_num), List.indexOf_cons_self]

/-- C9 witness: weights `[1, 1000]`, index 0 (raw weight 0, deficit goes
to index 1). -/
theorem C9_zero_weight_never_selected_witness :
    (adjustedWeights [1, 1000]).get? 0 = some 0 ∧
    ∀ (fetch : Except QErr ℤ) (c : String),
      quantum_choice ["a", "b"] (some [1, 1000]) fetch = .ok c →
        c ≠ (["a", "b"] : List String).getD 0 "" :=
  C9_zero_weight_never_selected ["a", "b"] [1, 1000] 0 rfl (by decide)
    (by decide) (by rw [normalizedWeights_skew]; rfl)
    (by
      intro hcontra
      rw [idxOfMax_skew] at hcontra
      exact absurd hcontra.2 one_ne_zero)

/-- C7: on a response whose status passed `raise_for_status` and whose
body parsed, `quantum_random_byte` raises the structure `ValueError`
(modelled `malformedResponse`) exactly when the `data` field is absent or
its sequence has length ≠ 1, and otherwise returns the single integer of
that sequence. -/
theorem C7_malformed_iff (r : HttpResponse) (p : Payload)
    (hs : r.status < 400) (hp : r.payload = some p) :
    (quantum_random_byte (some r) = .error .malformedResponse ↔
      p.data = none ∨ ∃ l, p.data = some l ∧ l.length ≠ 1) ∧
    (∀ x : ℤ, p.data = some [x] → quantum_random_byte (some r) = .ok x) := by
  have hq : quantum_random_byte (some r) =
      (match p.data with
       | none => .error .malformedResponse
       | some l =>
         if l.length = 1 then .ok (l.getD 0 0) else .error .malformedResponse) := by
    have hcond : ¬ (400 ≤ r.status ∧ r.status < 600) := by omega
    simp only [quantum_random_byte, hp, if_neg hcond]
  constructor
  · rw [hq]
    cases hd : p.data with
    | none => simp
    | some l =>
      match l with
      | [] => simp
      | [a] => simp
      | a :: b :: t => simp
  · intro x hx
    rw [hq, hx]
    rfl

/-- C7 witness: absent `data` field on a status-200 parsed response. -/
theorem C7_malformed_iff_witness :
    (quantum_random_byte (some ⟨200, some ⟨none⟩⟩) = .error .malformedResponse ↔
      (⟨none⟩ : Payload).data = none ∨
        ∃ l, (⟨none⟩ : Payload).data = some l ∧ l.length ≠ 1) ∧
    (∀ x : ℤ, (⟨none⟩ : Payload).data = some [x] →
      quantum_random_byte (some ⟨200, some ⟨none⟩⟩) = .ok x) :=
  C7_malformed_iff ⟨200, some ⟨none⟩⟩ ⟨none⟩ (by decide) rfl

/-- C8: once the table construction succeeds (equivalently, the network
request is issued), a failure outcome of the byte source propagates
unchanged out of `quantum_choice` — there is no retry and no handler —
and in particular a non-success HTTP status in the 400–599 band that
`raise_for_status` rejects, such as 500, surfaces as the
`sourceUnavailable` failure. The embedding is a pure function of its
arguments, so the already-built table produces no observable side
effect. -/
theorem C8_error_propagation (choices : List String) (weights : Option (List ℚ))
    (e : QErr) (hreq : requestsByte choices weights = true) :
    quantum_choice choices weights (.error e) = .error e ∧
    ∀ r : HttpResponse, 400 ≤ r.status → r.status < 600 →
      quantum_choice choices weights (quantum_random_byte (some r)) =
        .error .sourceUnavailable := by
  obtain ⟨cmap, hb⟩ : ∃ cmap, buildChoiceMap choices weights = .ok cmap := by
    rw [requestsByte] at hreq
    cases hb : buildChoiceMap choices weights with
    | ok c => exact ⟨c, rfl⟩
    | error e2 => rw [hb] at hreq; exact absurd hreq (by simp)
  constructor
  · rw [quantum_choice, hb]
  · intro r hr4 hr6
    have hcond : 400 ≤ r.status ∧ r.status < 600 := ⟨hr4, hr6⟩
    have hsrc : quantum_random_byte (some r) = .error .sourceUnavailable := by
      simp only [quantum_random_byte, if_pos hcond]
    rw [hsrc, quantum_choice, hb]

/-- C8 witness: one choice, weight 1, HTTP 500. -/
theorem C8_error_propagation_witness :
    quantum_choice ["a"] (some [1]) (.error .sourceUnavailable) =
      .error .sourceUnavailable ∧
    ∀ r : HttpResponse, 400 ≤ r.status → r.status < 600 →
      quantum_choice ["a"] (some [1]) (quantum_random_byte (some r)) =
        .error .sourceUnavailable :=
  C8_error_propagation ["a"] (some [1]) .sourceUnavailable
    (by rw [requestsByte, buildChoiceMap]; norm_num)

/-- C10: `quantum_choice` is deterministic in its inputs and the fetched
byte: two runs with equal choices, equal weights (or both omitted) and the
same byte-source outcome return the same result. In the embedding the
function is pure, so this is congruence. -/
theorem C10_deterministic (c₁ c₂ : List String) (w₁ w₂ : Option (List ℚ))
    (f₁ f₂ : Except QErr ℤ) (hc : c₁ = c₂) (hw : w₁ = w₂) (hf : f₁ = f₂) :
    quantum_choice c₁ w₁ f₁ = quantum_choice c₂ w₂ f₂ := by
  rw [hc, hw, hf]

/-- C10 witness at a concrete input. -/
theorem C10_deterministic_witness :
    quantum_choice ["a"] none (.ok 3) = quantum_choice ["a"] none (.ok 3) :=
  C10_deterministic ["a"] ["a"] none none (.ok 3) (.ok 3) rfl rfl rfl

end QRNG
